import Mathlib

/-!
Shallow embedding of the timing-redistribution engine of the repository
(`rigveda/scripts/postprocess_sync.py` and `rigveda/scripts/extract_text.py`).

Modelling conventions:
* Python strings are `List Char`; the brace characters of svara markers are
  written with the escapes `'\x7b'` (left brace) and `'\x7d'` (right brace).
* Python floats are modelled as exact rationals `ℚ`.  The `f"{t:.3f}"`
  rendering of timestamps is modelled by `round3` (round to the nearest
  multiple of 1/1000); tie-breaking of binary floats is idealized as
  round-half-up, and no concrete input below sits on a tie.
* `re.sub(r'\x7b[0-9]+\x7d', '', text)` and `re.finditer(r'\x7b(\d)\x7d', text)`
  are modelled by left-to-right scanners with the same leftmost, non-overlapping
  match semantics.
* Python dicts with a fixed key set become structures; exceptions become
  `Except`; file I/O in `process_verse` is elided (the loaded records are
  passed in as arguments).
-/

/-- One left-to-right pass of `re.sub(r'\x7b[0-9]+\x7d', '', text)`
(`postprocess_sync.extract_svara_info`, line 63, and
`extract_text.clean_svara_markers`).  The first argument is the scanner
state: `none` while outside a candidate marker, `some ds` after having read
a left brace followed by the digits `ds`.  On failure the scanner emits the
pending characters verbatim and resumes, exactly as the regex engine
advances by one position (the skipped digits cannot start a match). -/
def stripMarkersAux : Option (List Char) → List Char → List Char
  | none, [] => []
  | some ds, [] => '\x7b' :: ds
  | none, c :: rest =>
      if c = '\x7b' then stripMarkersAux (some []) rest
      else c :: stripMarkersAux none rest
  | some ds, c :: rest =>
      if c.isDigit then stripMarkersAux (some (ds ++ [c])) rest
      else if c = '\x7d' then
        if ds.isEmpty then '\x7b' :: '\x7d' :: stripMarkersAux none rest
        else stripMarkersAux none rest
      else if c = '\x7b' then ('\x7b' :: ds) ++ stripMarkersAux (some []) rest
      else ('\x7b' :: ds) ++ (c :: stripMarkersAux none rest)

/-- `re.sub(r'\x7b[0-9]+\x7d', '', text)`: delete every svara marker. -/
def stripMarkers (t : List Char) : List Char := stripMarkersAux none t

/-- `extract_text.clean_svara_markers` (same regex as the clean-text step of
`postprocess_sync.extract_svara_info`). -/
def clean_svara_markers (t : List Char) : List Char := stripMarkers t

/-- The codes, in scan order, of the single-digit markers found by
`re.finditer(r'\x7b(\d)\x7d', text)` in `extract_svara_info`. -/
def scanCodes : List Char → List Char
  | '\x7b' :: d :: '\x7d' :: rest =>
      if d.isDigit then d :: scanCodes rest
      else scanCodes (d :: '\x7d' :: rest)
  | _ :: rest => scanCodes rest
  | [] => []

/-- The `svara_counts` dict `{'0': _, '1': _, '2': _, '5': _}`. -/
structure SvaraCounts where
  c0 : ℕ
  c1 : ℕ
  c2 : ℕ
  c5 : ℕ
deriving DecidableEq, Repr, Inhabited

/-- The counting loop of `extract_svara_info`: bump the count of a
recognized code, ignore any other code. -/
def bumpCount (c : Char) (s : SvaraCounts) : SvaraCounts :=
  if c = '0' then { s with c0 := s.c0 + 1 }
  else if c = '1' then { s with c1 := s.c1 + 1 }
  else if c = '2' then { s with c2 := s.c2 + 1 }
  else if c = '5' then { s with c5 := s.c5 + 1 }
  else s

/-- `for match in re.finditer(...): if svara_type in svara_counts: ... += 1`. -/
def countLoop : List Char → SvaraCounts → SvaraCounts
  | [], s => s
  | c :: rest, s => countLoop rest (bumpCount c s)

/-- The module-level `SVARA_WEIGHTS` table, read with `.get(type, 0.0)`. -/
def SVARA_WEIGHTS (c : Char) : ℚ :=
  if c = '0' then 0
  else if c = '1' then 0
  else if c = '2' then 8/100
  else if c = '5' then 20/100
  else 0

/-- `calculate_svara_weight`: fold `SVARA_WEIGHTS.get(svara_type, 0.0) * count`
over the four entries of the counts dict. -/
def calculate_svara_weight (s : SvaraCounts) : ℚ :=
  0 + SVARA_WEIGHTS '0' * s.c0 + SVARA_WEIGHTS '1' * s.c1
    + SVARA_WEIGHTS '2' * s.c2 + SVARA_WEIGHTS '5' * s.c5

/-- One left-to-right pass of Python `str.replace("\x7b" ++ [d] ++ "\x7d", rep)`:
the three-character marker with code `d` is replaced by `rep`, scanning
left to right without rescanning replacements. -/
def pyReplace3 (d : Char) (rep : List Char) : List Char → List Char
  | '\x7b' :: c :: '\x7d' :: rest =>
      if c = d then rep ++ pyReplace3 d rep rest
      else '\x7b' :: pyReplace3 d rep (c :: '\x7d' :: rest)
  | c :: rest => c :: pyReplace3 d rep rest
  | [] => []

/-- `parse_svara_to_unicode`: the chain of four `str.replace` calls. -/
def parse_svara_to_unicode (t : List Char) : List Char :=
  pyReplace3 '0' []
    (pyReplace3 '5' ['॑']
      (pyReplace3 '2' ['᳚']
        (pyReplace3 '1' ['॒'] t)))

/-- The dict returned by `extract_svara_info`. -/
structure SvaraParse where
  clean_text : List Char
  text_with_svaras : List Char
  svara_counts : SvaraCounts
  total_svaras : ℕ
deriving DecidableEq, Repr, Inhabited

/-- `extract_svara_info` (postprocess_sync.py, lines 49–73). -/
def extract_svara_info (t : List Char) : SvaraParse :=
  let counts := countLoop (scanCodes t) ⟨0, 0, 0, 0⟩
  { clean_text := stripMarkers t
    text_with_svaras := parse_svara_to_unicode t
    svara_counts := counts
    total_svaras := counts.c0 + counts.c1 + counts.c2 + counts.c5 }

/-- The word dict built in `extract_words_with_svaras`: the
`extract_svara_info` fields plus `weight` and `raw`. -/
structure WordInfo extends SvaraParse where
  weight : ℚ
  raw : List Char
deriving DecidableEq, Repr, Inhabited

/-- The loop body of `extract_words_with_svaras` for one raw token:
`info = extract_svara_info(raw_word); info['weight'] = ...; info['raw'] = ...`. -/
def mkWord (raw_word : List Char) : WordInfo :=
  let info := extract_svara_info raw_word
  { toSvaraParse := info
    weight := calculate_svara_weight info.svara_counts
    raw := raw_word }

/-- Python `str.split()` (split on whitespace runs, no empty tokens),
as a one-pass scanner; the state carries the token currently being read. -/
def pySplitAux : Option (List Char) → List Char → List (List Char)
  | none, [] => []
  | some w, [] => [w]
  | none, c :: rest =>
      if c.isWhitespace then pySplitAux none rest
      else pySplitAux (some [c]) rest
  | some w, c :: rest =>
      if c.isWhitespace then w :: pySplitAux none rest
      else pySplitAux (some (w ++ [c])) rest

/-- Python `str.split()`. -/
def pySplit (t : List Char) : List (List Char) := pySplitAux none t

/-- Python `str.strip()`: drop leading and trailing whitespace. -/
def pyStrip (t : List Char) : List Char :=
  ((t.dropWhile Char.isWhitespace).reverse.dropWhile Char.isWhitespace).reverse

/-- A line of the `samhita.lines` field of a verse record: either a plain
string or a nested list of strings (deeper nesting and non-string parts do
not occur in the data model of the spec's §6). -/
inductive Line where
  | str (s : List Char)
  | lst (parts : List (List Char))
deriving DecidableEq, Repr

/-- `extract_words_with_svaras` (postprocess_sync.py, lines 82–99):
only plain-string lines are processed; each is split on whitespace and each
raw token parsed with `extract_svara_info`. -/
def extract_words_with_svaras (samhita_lines : List Line) : List WordInfo :=
  (samhita_lines.map (fun line =>
    match line with
    | Line.str s => (pySplit s).map mkWord
    | Line.lst _ => [])).flatten

/-- The verse record (only the field the core reads:
`verse_data.get('samhita', {}).get('lines', [])`). -/
structure VerseData where
  samhita_lines : List Line
deriving DecidableEq, Repr

/-- `extract_text.extract_words_from_samhita` (lines 20–38): string lines are
cleaned then split; list lines are traversed and each string part cleaned
and split; tokens are stripped and empty ones dropped
(`[w.strip() for w in clean.split() if w.strip()]`). -/
def extract_words_from_samhita (verse_data : VerseData) : List (List Char) :=
  (verse_data.samhita_lines.map (fun line =>
    match line with
    | Line.str s =>
        ((pySplit (clean_svara_markers s)).map pyStrip).filter
          (fun w => !w.isEmpty)
    | Line.lst parts =>
        (parts.map (fun p =>
          ((pySplit (clean_svara_markers p)).map pyStrip).filter
            (fun w => !w.isEmpty))).flatten)).flatten

/-- An aligned fragment of the sync map: the `lines` list and the numeric
values of `begin`/`end` (the Python code reads them with `float(...)`).
`end` is a Lean keyword, so the field is called `endv`. -/
structure Fragment where
  lines : List (List Char)
  begin : ℚ
  endv : ℚ
deriving DecidableEq, Repr, Inhabited

/-- The sync record (`sync_data.get('fragments', [])`). -/
structure SyncData where
  fragments : List Fragment
deriving DecidableEq, Repr, Inhabited

/-- `frag['lines'][0] if frag.get('lines') else ''` (an empty `lines` list is
falsy in Python, like a missing key). -/
def fragText (f : Fragment) : List Char :=
  match f.lines with
  | [] => []
  | t :: _ => t

/-- The numeric value of the rendered timestamp `f"{t:.3f}"`: `t` rounded to
the nearest multiple of 1/1000 (ties idealized as round-half-up). -/
def round3 (q : ℚ) : ℚ := (round ((1000 : ℚ) * q) : ℤ) / 1000

/-- The Fragment Matcher of `adjust_timing` (postprocess_sync.py, lines
124–137).  Fast path: equal counts pair positionally (the word list is used
as-is).  Recovery path: each fragment, in order, takes the first word of the
full word list whose stripped `clean_text` equals the fragment's stripped
text; already-matched words are *not* excluded.  `recoverMatched` is the
`matched` list built by the recovery loop. -/
def recoverMatched (fragments : List Fragment) (words_with_svaras : List WordInfo) :
    List (Fragment × WordInfo) :=
  fragments.filterMap (fun frag =>
    (words_with_svaras.find? (fun w =>
      decide (pyStrip w.clean_text = pyStrip (fragText frag)))).map
        (fun w => (frag, w)))

/-- The overall matcher outcome: `some` is the word list `adjust_timing`
continues with (`words_with_svaras = [m[1] for m in matched]` after
recovery), `none` is the skip-adjustment signal. -/
def matchedWords (fragments : List Fragment) (words_with_svaras : List WordInfo) :
    Option (List WordInfo) :=
  if fragments.length = words_with_svaras.length then some words_with_svaras
  else if (recoverMatched fragments words_with_svaras).length = fragments.length
  then some ((recoverMatched fragments words_with_svaras).map Prod.snd)
  else none

/-- One entry of the `word_weights` list of `adjust_timing` (lines 143–163). -/
structure WeightInfo where
  index : ℕ
  text : List Char
  text_with_svaras : List Char
  base_weight : ℚ
  svara_bonus : ℚ
  total_weight : ℚ
  svara_counts : SvaraCounts
deriving DecidableEq, Repr, Inhabited

/-- The loop body building one `word_weights` entry:
`base_weight_per_char = 0.1`, `base_weight = char_count * 0.1`,
`svara_bonus = word_info['weight']`. -/
def mkWeightInfo (i : ℕ) (fw : Fragment × WordInfo) : WeightInfo :=
  let char_count : ℕ := fw.2.clean_text.length
  let base_weight : ℚ := char_count * (1/10)
  let svara_bonus : ℚ := fw.2.weight
  { index := i
    text := fw.2.clean_text
    text_with_svaras := fw.2.text_with_svaras
    base_weight := base_weight
    svara_bonus := svara_bonus
    total_weight := base_weight + svara_bonus
    svara_counts := fw.2.svara_counts }

/-- `for i, (frag, word_info) in enumerate(zip(fragments, words_with_svaras))`. -/
def wordWeights (fragments : List Fragment) (ws : List WordInfo) : List WeightInfo :=
  ((fragments.zip ws).enum).map (fun p => mkWeightInfo p.1 p.2)

/-- The `svara_info` object attached to an adjusted fragment. -/
structure SvaraInfoOut where
  counts : SvaraCounts
  bonus : ℚ
  original_duration : ℚ
  adjusted_duration : ℚ
deriving DecidableEq, Repr, Inhabited

/-- An adjusted fragment: `frag.copy()` with `begin`/`end` overwritten by the
rendered `f"{...:.3f}"` values and the two added fields. -/
structure AdjFragment where
  lines : List (List Char)
  begin : ℚ
  endv : ℚ
  lines_with_svaras : List (List Char)
  svara_info : SvaraInfoOut
deriving DecidableEq, Repr, Inhabited

/-- The redistribution loop of `adjust_timing` (lines 169–198): walk the
matched pairs in original fragment order, carrying the exact (unrounded)
`current_time`; each emitted fragment stores the rounded boundaries. -/
def buildAdjusted :
    List (Fragment × WeightInfo) → ℚ → ℚ → ℚ → List AdjFragment
  | [], _, _, _ => []
  | (frag, winfo) :: rest, current_time, total_duration, total_weight =>
      let weight_ratio := winfo.total_weight / total_weight
      let new_duration := total_duration * weight_ratio
      { lines := frag.lines
        begin := round3 current_time
        endv := round3 (current_time + new_duration)
        lines_with_svaras := [winfo.text_with_svaras]
        svara_info :=
          { counts := winfo.svara_counts
            bonus := winfo.svara_bonus
            original_duration := frag.endv - frag.begin
            adjusted_duration := new_duration } }
        :: buildAdjusted rest (current_time + new_duration) total_duration total_weight

/-- The ways `adjust_timing` can raise: `indexError` models the `IndexError`
of `fragments[-1]` on an empty fragment list; `zeroTotalWeight` models the
`ZeroDivisionError` raised by `weight_info['total_weight'] / total_weight`
when the summed weight is zero. -/
inductive AdjustErr where
  | indexError
  | zeroTotalWeight
deriving DecidableEq, Repr

/-- The result of `adjust_timing`: either the input sync record returned
as-is (matcher failure) or the freshly built `{'fragments': ...}` record. -/
inductive AdjResult where
  | unchanged (sync : SyncData)
  | adjusted (fragments : List AdjFragment)
deriving DecidableEq, Repr

/-- `adjust_timing` (postprocess_sync.py, lines 113–200). -/
def adjust_timing (sync_data : SyncData) (words_with_svaras : List WordInfo) :
    Except AdjustErr AdjResult :=
  match matchedWords sync_data.fragments words_with_svaras with
  | none => Except.ok (AdjResult.unchanged sync_data)
  | some ws =>
    match sync_data.fragments with
    | [] => Except.error AdjustErr.indexError
    | f0 :: rest =>
      let total_duration := (rest.getLastD f0).endv - f0.begin
      let word_weights := wordWeights (f0 :: rest) ws
      let total_weight := (word_weights.map (fun w => w.total_weight)).sum
      if total_weight = 0 then Except.error AdjustErr.zeroTotalWeight
      else
        Except.ok (AdjResult.adjusted
          (buildAdjusted ((f0 :: rest).zip word_weights) f0.begin
            total_duration total_weight))

/-- `process_verse` (postprocess_sync.py, lines 202–225) with the file I/O
elided: the loaded verse and sync records are passed in, and the returned
pair is the success flag together with the record that would be saved
(`none` when an exception was caught). -/
def process_verse (verse_data : VerseData) (sync_data : SyncData) :
    Bool × Option AdjResult :=
  match adjust_timing sync_data (extract_words_with_svaras verse_data.samhita_lines) with
  | Except.ok r => (true, some r)
  | Except.error _ => (false, none)

/-- The batch loop of `main`: each verse is processed independently. -/
def processBatch (batch : List (VerseData × SyncData)) :
    List (Bool × Option AdjResult) :=
  batch.map (fun p => process_verse p.1 p.2)

/-- Project the adjusted fragment list out of an `adjust_timing` result. -/
def adjFragsOf : Except AdjustErr AdjResult → Option (List AdjFragment)
  | Except.ok (AdjResult.adjusted l) => some l
  | _ => none

/-- Modelled from the spec (recovery path of §4.3) as the claim C3 states it:
each fragment, in order, is paired with the first word whose stripped
`clean_text` equals the fragment's stripped text, **excluding words already
matched to an earlier fragment** (each matched word is consumed); failure if
some fragment finds no remaining word.  This is the spec's description, to
be compared with the source's `matchedWords`. -/
def specMatchConsume : List Fragment → List WordInfo → Option (List WordInfo)
  | [], _ => some []
  | f :: fs, ws =>
    match ws.findIdx? (fun w =>
        decide (pyStrip w.clean_text = pyStrip (fragText f))) with
    | none => none
    | some i =>
      match ws[i]? with
      | none => none
      | some w => (specMatchConsume fs (ws.eraseIdx i)).map (fun rest => w :: rest)

/-- Modelled from the spec (recovery path of §4.3), amended to match the
source: each fragment, in order, is paired with the first word of the *full*
word list (already-matched words are not excluded) whose stripped
`clean_text` equals the fragment's stripped text; failure if some fragment
finds no such word. -/
def specMatchNoConsume : List Fragment → List WordInfo → Option (List WordInfo)
  | [], _ => some []
  | f :: fs, ws =>
    match ws.find? (fun w =>
        decide (pyStrip w.clean_text = pyStrip (fragText f))) with
    | none => none
    | some w => (specMatchNoConsume fs ws).map (fun rest => w :: rest)

/-! Concrete inputs used by witnesses and counterexamples. -/

/-- A three-fragment sync record with span `T = 3` starting at `begin = 1`. -/
def c7sync : SyncData :=
  ⟨[⟨["agn".data], 1, 2⟩, ⟨["indra".data], 2, 7/2⟩, ⟨["va".data], 7/2, 4⟩]⟩

/-- Three marker-free words of 3, 5 and 2 characters (weights 0.3, 0.5, 0.2). -/
def c7words : List WordInfo := extract_words_with_svaras [Line.str "agn indra va".data]

/-- A one-fragment sync record on the millisecond grid. -/
def w1sync : SyncData := ⟨[⟨[['a']], 1, 2⟩]⟩

/-- The single word "a". -/
def w1words : List WordInfo := extract_words_with_svaras [Line.str ['a']]

/-- The adjusted output `adjust_timing` produces for `w1sync`/`w1words`. -/
def w1afs : List AdjFragment := [⟨[['a']], 1, 2, [['a']], ⟨⟨0, 0, 0, 0⟩, 0, 1, 1⟩⟩]

/-- A one-fragment sync record whose `begin` (1/2500 = 0.0004 s) is not on
the millisecond grid. -/
def c2sync : SyncData := ⟨[⟨[['a']], 1/2500, 1⟩]⟩

/-- The single word "a". -/
def c2words : List WordInfo := extract_words_with_svaras [Line.str ['a']]

/-- Two fragments with the same text "agni". -/
def c3Frs : List Fragment := [⟨["agni".data], 0, 1⟩, ⟨["agni".data], 1, 2⟩]

/-- Three words whose clean texts are "agni", "x", "agni"; the two "agni"
words are distinguishable by their raw text (the third carries a marker). -/
def c3Words : List WordInfo :=
  extract_words_with_svaras [Line.str "agni x agni\x7b5\x7d".data]

/-- The spec's worked matcher example: fragments "agni", "ile". -/
def agFrs : List Fragment := [⟨["agni".data], 0, 1⟩, ⟨["ile".data], 1, 2⟩]

/-- The spec's worked matcher example: words "agni", "puro", "hitam", "ile". -/
def agWords : List WordInfo :=
  extract_words_with_svaras [Line.str "agni puro hitam ile".data]

/-- A verse whose two words match no fragment text. -/
def c4verse : VerseData := ⟨[Line.str "agni ile".data]⟩

/-- A single fragment whose text "zzz" matches no word. -/
def c4sync : SyncData := ⟨[⟨["zzz".data], 0, 1⟩]⟩

/-- A verse whose only token is a bare marker: its clean text is empty and
its svara bonus is zero, so its total weight is zero. -/
def c5verse : VerseData := ⟨[Line.str "\x7b1\x7d".data]⟩

/-- A one-fragment sync record for `c5verse` (counts match: fast path). -/
def c5sync : SyncData := ⟨[⟨["x".data], 0, 1⟩]⟩

/-- Does the marker regex `\x7b[0-9]+\x7d` match at the head of `t`?
(A left brace, one or more digits, a right brace.) -/
def isMarkerAt (t : List Char) : Bool :=
  match t with
  | '\x7b' :: rest =>
    match rest.dropWhile Char.isDigit with
    | '\x7d' :: _ => !(rest.takeWhile Char.isDigit).isEmpty
    | _ => false
  | _ => false

/-- Does `t` contain an occurrence of the marker pattern `\x7b[0-9]+\x7d`
anywhere (i.e. would `re.search` find a marker)? -/
def containsMarker : List Char → Bool
  | [] => false
  | c :: rest => isMarkerAt (c :: rest) || containsMarker rest

/-- An all-plain-string verse containing a token that consists only of a
marker. -/
def c10lines : List Line := [Line.str "a \x7b1\x7d b".data]

/-- A verse whose single line is a nested list. -/
def c10nested : List Line := [Line.lst ["agni".data]]

/-- A raw token described as the sequence of its inline segments: ordinary
characters and markers carrying their digit code.  This is the domain over
which C9 is stated; stray left braces outside markers are excluded by
`tokOK`. -/
inductive Tok where
  | ch (c : Char)
  | marker (code : List Char)
deriving DecidableEq, Repr

/-- The raw text of one segment. -/
def renderTok : Tok → List Char
  | Tok.ch c => [c]
  | Tok.marker code => '\x7b' :: code ++ ['\x7d']

/-- The raw text of a segment sequence. -/
def render (ss : List Tok) : List Char := (ss.map renderTok).flatten

/-- Well-formedness of one segment: an ordinary character is not a left
brace, and a marker code is one or more digits. -/
def tokOK : Tok → Bool
  | Tok.ch c => c ≠ '\x7b'
  | Tok.marker code => (!code.isEmpty) && code.all Char.isDigit

/-- Well-formedness of a segment sequence. -/
def tokWF (ss : List Tok) : Bool := ss.all tokOK

/-- The single-digit marker codes of a segment, in order — exactly what the
counting regex `\x7b(\d)\x7d` sees (multi-digit markers are invisible to it). -/
def codeEvents : Tok → List Char
  | Tok.ch _ => []
  | Tok.marker [d] => [d]
  | Tok.marker _ => []

/-- All single-digit marker codes of a segment sequence, in scan order. -/
def codesOf (ss : List Tok) : List Char := (ss.map codeEvents).flatten

/-- The clean text of a segment: markers strip to nothing. -/
def cleanEvents : Tok → List Char
  | Tok.ch c => [c]
  | Tok.marker _ => []

/-- The clean text of a segment sequence. -/
def cleanOf (ss : List Tok) : List Char := (ss.map cleanEvents).flatten

/-! Supporting lemmas. -/

theorem matchedWords_length {frs : List Fragment} {ws ws' : List WordInfo}
    (h : matchedWords frs ws = some ws') : ws'.length = frs.length := by
  unfold matchedWords at h
  by_cases h1 : frs.length = ws.length
  · rw [if_pos h1] at h
    injection h with h'
    rw [← h']
    exact h1.symm
  · rw [if_neg h1] at h
    by_cases h2 : (recoverMatched frs ws).length = frs.length
    · rw [if_pos h2] at h
      injection h with h'
      rw [← h', List.length_map]
      exact h2
    · rw [if_neg h2] at h
      cases h

theorem wordWeights_length (frs : List Fragment) (ws : List WordInfo) :
    (wordWeights frs ws).length = min frs.length ws.length := by
  simp [wordWeights]

theorem zip_map_snd_fun {α β γ : Type} (l1 : List α) (l2 : List β) (g : β → γ)
    (h : l2.length ≤ l1.length) :
    (l1.zip l2).map (fun p => g p.2) = l2.map g := by
  rw [show (fun p : α × β => g p.2) = g ∘ Prod.snd from rfl, ← List.map_map,
    List.map_snd_zip _ _ h]

theorem buildAdjusted_length (zps : List (Fragment × WeightInfo)) :
    ∀ t T W : ℚ, (buildAdjusted zps t T W).length = zps.length := by
  induction zps with
  | nil => intro t T W; rfl
  | cons fw zps ih =>
    intro t T W
    rcases fw with ⟨f, w⟩
    simp [buildAdjusted, ih]

theorem buildAdjusted_sum (zps : List (Fragment × WeightInfo)) :
    ∀ t T W : ℚ,
      ((buildAdjusted zps t T W).map (fun a => a.svara_info.adjusted_duration)).sum
        = ((zps.map (fun p => p.2.total_weight)).sum) * (T / W) := by
  induction zps with
  | nil => intro t T W; simp [buildAdjusted]
  | cons fw zps ih =>
    intro t T W
    rcases fw with ⟨f, w⟩
    simp only [buildAdjusted, List.map_cons, List.sum_cons, ih]
    ring

theorem buildAdjusted_head_begin (f : Fragment) (w : WeightInfo)
    (zps : List (Fragment × WeightInfo)) (t T W : ℚ) :
    ((buildAdjusted ((f, w) :: zps) t T W).getD 0 default).begin = round3 t := by
  simp [buildAdjusted]

theorem buildAdjusted_chain (zps : List (Fragment × WeightInfo)) :
    ∀ (t T W : ℚ) (i : ℕ), i + 1 < (buildAdjusted zps t T W).length →
      ((buildAdjusted zps t T W).getD (i + 1) default).begin
        = ((buildAdjusted zps t T W).getD i default).endv := by
  induction zps with
  | nil => intro t T W i h; simp [buildAdjusted] at h
  | cons fw zps ih =>
    intro t T W i h
    rcases fw with ⟨f, w⟩
    cases i with
    | zero =>
      cases zps with
      | nil => simp [buildAdjusted] at h
      | cons fw2 zps2 =>
        rcases fw2 with ⟨f2, w2⟩
        simp [buildAdjusted]
    | succ j =>
      have h' : j + 1 < (buildAdjusted zps
          (t + T * (w.total_weight / W)) T W).length := by
        rw [buildAdjusted_length] at h ⊢
        simp at h
        omega
      have := ih (t + T * (w.total_weight / W)) T W j h'
      simpa [buildAdjusted] using this

theorem adjust_timing_ok_adjusted {sync : SyncData} {words : List WordInfo}
    {afs : List AdjFragment} {f0 : Fragment} {rest : List Fragment}
    (h : adjust_timing sync words = Except.ok (AdjResult.adjusted afs))
    (hfr : sync.fragments = f0 :: rest) :
    ∃ ws : List WordInfo,
      matchedWords (f0 :: rest) words = some ws ∧
      ((wordWeights (f0 :: rest) ws).map (fun w => w.total_weight)).sum ≠ 0 ∧
      afs = buildAdjusted ((f0 :: rest).zip (wordWeights (f0 :: rest) ws)) f0.begin
          ((rest.getLastD f0).endv - f0.begin)
          (((wordWeights (f0 :: rest) ws).map (fun w => w.total_weight)).sum) := by
  unfold adjust_timing at h
  rw [hfr] at h
  cases hm : matchedWords (f0 :: rest) words with
  | none => rw [hm] at h; cases h
  | some ws =>
    rw [hm] at h
    simp only [] at h
    by_cases hW : ((wordWeights (f0 :: rest) ws).map (fun w => w.total_weight)).sum = 0
    · rw [if_pos hW] at h
      cases h
    · rw [if_neg hW] at h
      injection h with h'
      injection h' with h''
      exact ⟨ws, rfl, hW, h''.symm⟩

theorem recovery_eq_noconsume (ws : List WordInfo) :
    ∀ frs : List Fragment,
      (if (recoverMatched frs ws).length = frs.length
       then some ((recoverMatched frs ws).map Prod.snd)
       else none) = specMatchNoConsume frs ws := by
  intro frs
  induction frs with
  | nil => simp [recoverMatched, specMatchNoConsume]
  | cons f fs ih =>
    cases hf : ws.find? (fun w =>
        decide (pyStrip w.clean_text = pyStrip (fragText f))) with
    | none =>
      have hrec : recoverMatched (f :: fs) ws = recoverMatched fs ws := by
        simp [recoverMatched, hf]
      have hle : (recoverMatched fs ws).length ≤ fs.length :=
        List.length_filterMap_le _ _
      rw [hrec, if_neg (by simp only [List.length_cons]; omega), specMatchNoConsume, hf]
    | some w =>
      have hrec : recoverMatched (f :: fs) ws = (f, w) :: recoverMatched fs ws := by
        simp [recoverMatched, hf]
      rw [hrec, specMatchNoConsume, hf]
      by_cases hc : (recoverMatched fs ws).length = fs.length
      · rw [if_pos (by simp [hc]), ← ih, if_pos hc]
        simp
      · rw [if_neg (by simp [hc]), ← ih, if_neg hc]
        simp

theorem matchedWords_eq_spec (frs : List Fragment) (ws : List WordInfo)
    (h : frs.length ≠ ws.length) :
    matchedWords frs ws = specMatchNoConsume frs ws := by
  unfold matchedWords
  rw [if_neg h]
  exact recovery_eq_noconsume ws frs

theorem w1_eval : adjust_timing w1sync w1words = Except.ok (AdjResult.adjusted w1afs) := by
  simp +decide [w1sync, w1words, w1afs, adjust_timing, matchedWords,
    extract_words_with_svaras, pySplit, pySplitAux, mkWord, extract_svara_info,
    scanCodes, countLoop, bumpCount, stripMarkers, stripMarkersAux,
    parse_svara_to_unicode, pyReplace3, calculate_svara_weight, SVARA_WEIGHTS,
    wordWeights, mkWeightInfo, List.enum]
  norm_num [buildAdjusted, round3, round_eq]

/-! Claim theorems. -/

/-- **C1**: for every verse on which the matcher succeeds (and hence
`adjust_timing` returns an adjusted fragment list), the sum of the adjusted
fragment durations equals the original total span
`T = (last fragment's end) − (first fragment's begin)` within 1e-3 seconds
(in the exact-rational model the sum is in fact exactly `T`). -/
theorem c1_span_preserved (sync : SyncData) (words : List WordInfo)
    (afs : List AdjFragment) (f0 : Fragment) (rest : List Fragment)
    (h : adjust_timing sync words = Except.ok (AdjResult.adjusted afs))
    (hfr : sync.fragments = f0 :: rest) :
    |((afs.map (fun a => a.svara_info.adjusted_duration)).sum)
        - ((rest.getLastD f0).endv - f0.begin)| ≤ 1/1000 := by
  obtain ⟨ws, hm, hW, hafs⟩ := adjust_timing_ok_adjusted h hfr
  subst hafs
  rw [buildAdjusted_sum]
  have hwlen : ws.length = (f0 :: rest).length := matchedWords_length hm
  have hlen : (wordWeights (f0 :: rest) ws).length ≤ (f0 :: rest).length := by
    rw [wordWeights_length]
    exact min_le_left _ _
  rw [zip_map_snd_fun _ _ _ hlen]
  rw [mul_comm, div_mul_cancel₀ _ hW]
  simp

/-- Witness for C1 at a concrete input: `w1sync`/`w1words` succeed and the
adjusted durations sum to the original span within 1e-3. -/
theorem c1_witness :
    adjust_timing w1sync w1words = Except.ok (AdjResult.adjusted w1afs) ∧
    |((w1afs.map (fun a => a.svara_info.adjusted_duration)).sum)
        - ((([] : List Fragment).getLastD (⟨[['a']], 1, 2⟩ : Fragment)).endv
            - (⟨[['a']], 1, 2⟩ : Fragment).begin)| ≤ 1/1000 :=
  ⟨w1_eval, c1_span_preserved w1sync w1words w1afs ⟨[['a']], 1, 2⟩ [] w1_eval rfl⟩

/-- **C2** (corrected): chaining holds exactly — for every `i > 0` the
adjusted `begin` of fragment `i` equals the adjusted `end` of fragment
`i − 1` (no gaps, no overlaps) — but the first adjusted `begin` equals the
original first fragment's `begin` *rounded to millisecond precision*
(`round3`, modelling the `f"{...:.3f}"` rendering), which coincides with the
original value exactly when that value lies on the millisecond grid. -/
theorem c2_boundaries (sync : SyncData) (words : List WordInfo)
    (afs : List AdjFragment) (f0 : Fragment) (rest : List Fragment)
    (h : adjust_timing sync words = Except.ok (AdjResult.adjusted afs))
    (hfr : sync.fragments = f0 :: rest) :
    (afs.getD 0 default).begin = round3 f0.begin ∧
    ∀ i : ℕ, i + 1 < afs.length →
      (afs.getD (i + 1) default).begin = (afs.getD i default).endv := by
  obtain ⟨ws, hm, hW, hafs⟩ := adjust_timing_ok_adjusted h hfr
  subst hafs
  constructor
  · have hwlen : ws.length = (f0 :: rest).length := matchedWords_length hm
    have hne : wordWeights (f0 :: rest) ws ≠ [] := by
      intro hnil
      have := wordWeights_length (f0 :: rest) ws
      rw [hnil, hwlen] at this
      simp at this
    obtain ⟨w0, www', hww⟩ := List.exists_cons_of_ne_nil hne
    rw [hww, List.zip_cons_cons]
    exact buildAdjusted_head_begin _ _ _ _ _ _
  · intro i hi
    exact buildAdjusted_chain _ _ _ _ i hi

/-- Counterexample for C2 as stated: with an original first `begin` of
1/2500 s (= 0.0004, not on the millisecond grid) the first adjusted `begin`
is 0, not 1/2500. -/
theorem c2_counterexample :
    (adjFragsOf (adjust_timing c2sync c2words)).map (fun l => l.map (fun a => a.begin))
      = some [0] ∧
    c2sync.fragments.map (fun f => f.begin) = [1/2500] ∧ (0 : ℚ) ≠ 1/2500 := by
  refine ⟨?_, by norm_num [c2sync], by norm_num⟩
  simp +decide [c2sync, c2words, adjust_timing, matchedWords,
    extract_words_with_svaras, pySplit, pySplitAux, mkWord, extract_svara_info,
    scanCodes, countLoop, bumpCount, stripMarkers, stripMarkersAux,
    parse_svara_to_unicode, pyReplace3, calculate_svara_weight, SVARA_WEIGHTS,
    wordWeights, mkWeightInfo, adjFragsOf, List.enum]
  norm_num [buildAdjusted, round3, round_eq, adjFragsOf]

/-- Witness for the amended C2 at a concrete input. -/
theorem c2_witness :
    (w1afs.getD 0 default).begin = round3 (1 : ℚ) ∧
    ∀ i : ℕ, i + 1 < w1afs.length →
      (w1afs.getD (i + 1) default).begin = (w1afs.getD i default).endv :=
  c2_boundaries w1sync w1words w1afs ⟨[['a']], 1, 2⟩ [] w1_eval rfl

/-- Counterexample for C3 as stated: with fragments "agni","agni" and words
whose clean texts are "agni","x","agni" (the third word carries a `{5}`
marker, so its raw text differs), the code pairs *both* fragments with word
0 — the second fragment re-uses the already-matched word — whereas the
claim's consuming search would pair the second fragment with word 2. -/
theorem c3_counterexample :
    (matchedWords c3Frs c3Words).map (fun l => l.map (fun w => w.raw))
      = some ["agni".data, "agni".data] ∧
    (specMatchConsume c3Frs c3Words).map (fun l => l.map (fun w => w.raw))
      = some ["agni".data, "agni\x7b5\x7d".data] ∧
    ("agni".data : List Char) ≠ "agni\x7b5\x7d".data := by
  refine ⟨by decide, by decide, by decide⟩

/-- **C3** (corrected): when the fragment count differs from the word count,
the recovery path pairs each fragment, in original order, with the *first*
word of the full word list whose stripped `clean_text` equals the fragment's
stripped text — already-matched words are **not** excluded, so a word can be
consumed by several fragments — and matching is infeasible iff some fragment
finds no such word (`specMatchNoConsume`).  The claim's worked example
(fragments "agni","ile" against words "agni","puro","hitam","ile") does
yield the complete 2-pair match fragment 0 ↔ word 0, fragment 1 ↔ word 3. -/
theorem c3_recovery (frs : List Fragment) (ws : List WordInfo)
    (h : frs.length ≠ ws.length) :
    matchedWords frs ws = specMatchNoConsume frs ws ∧
    (matchedWords agFrs agWords).map (fun l => l.map (fun w => w.raw))
      = some ["agni".data, "ile".data] :=
  ⟨matchedWords_eq_spec frs ws h, by decide⟩

/-- Witness for the amended C3 at a concrete input (counts 2 ≠ 4). -/
theorem c3_witness :
    matchedWords agFrs agWords = specMatchNoConsume agFrs agWords ∧
    (matchedWords agFrs agWords).map (fun l => l.map (fun w => w.raw))
      = some ["agni".data, "ile".data] :=
  c3_recovery agFrs agWords (by decide)

/-- **C4**: whenever the matcher fails to establish a complete pairing,
`adjust_timing` returns the input sync record with its fragments completely
unmodified (`AdjResult.unchanged sync_data` is the input itself, never a
partial rewrite), and `process_verse` still reports success for the batch
(the outcome is non-fatal). -/
theorem c4_infeasible_noop (verse_data : VerseData) (sync_data : SyncData)
    (h : matchedWords sync_data.fragments
        (extract_words_with_svaras verse_data.samhita_lines) = none) :
    adjust_timing sync_data (extract_words_with_svaras verse_data.samhita_lines)
      = Except.ok (AdjResult.unchanged sync_data) ∧
    process_verse verse_data sync_data
      = (true, some (AdjResult.unchanged sync_data)) := by
  have h1 : adjust_timing sync_data
      (extract_words_with_svaras verse_data.samhita_lines)
      = Except.ok (AdjResult.unchanged sync_data) := by
    unfold adjust_timing
    rw [h]
  refine ⟨h1, ?_⟩
  unfold process_verse
  rw [h1]

/-- Witness for C4 at a concrete input (1 fragment "zzz" vs 2 words). -/
theorem c4_witness :
    adjust_timing c4sync (extract_words_with_svaras c4verse.samhita_lines)
      = Except.ok (AdjResult.unchanged c4sync) ∧
    process_verse c4verse c4sync = (true, some (AdjResult.unchanged c4sync)) :=
  c4_infeasible_noop c4verse c4sync (by decide)

/-- **C5**: when the total weight over all matched pairs is zero,
`adjust_timing` signals the `zeroTotalWeight` error (modelling the
`ZeroDivisionError` Python raises at the first per-pair division) instead of
producing any output; `process_verse` reports it as a failure for that
verse; and in a batch only that verse's entry is affected — every other
verse is processed exactly as it would be on its own. -/
theorem c5_zero_weight (verse_data : VerseData) (sync_data : SyncData)
    (ws : List WordInfo) (f0 : Fragment) (rest : List Fragment)
    (pre post : List (VerseData × SyncData))
    (hm : matchedWords sync_data.fragments
        (extract_words_with_svaras verse_data.samhita_lines) = some ws)
    (hfr : sync_data.fragments = f0 :: rest)
    (hW : ((wordWeights (f0 :: rest) ws).map (fun w => w.total_weight)).sum = 0) :
    adjust_timing sync_data (extract_words_with_svaras verse_data.samhita_lines)
      = Except.error AdjustErr.zeroTotalWeight ∧
    process_verse verse_data sync_data = (false, none) ∧
    processBatch (pre ++ (verse_data, sync_data) :: post)
      = processBatch pre ++ (false, none) :: processBatch post := by
  rw [hfr] at hm
  have h1 : adjust_timing sync_data
      (extract_words_with_svaras verse_data.samhita_lines)
      = Except.error AdjustErr.zeroTotalWeight := by
    unfold adjust_timing
    rw [hfr, hm]
    simp only []
    rw [if_pos hW]
  have h2 : process_verse verse_data sync_data = (false, none) := by
    unfold process_verse
    rw [h1]
  refine ⟨h1, h2, ?_⟩
  simp only [processBatch, List.map_append, List.map_cons]
  rw [h2]

/-- Witness for C5 at a concrete input: the verse whose only token is the
bare marker "\x7b1\x7d" (empty clean text, zero bonus). -/
theorem c5_witness :
    adjust_timing c5sync (extract_words_with_svaras c5verse.samhita_lines)
      = Except.error AdjustErr.zeroTotalWeight ∧
    process_verse c5verse c5sync = (false, none) ∧
    processBatch ([] ++ (c5verse, c5sync) :: [])
      = processBatch [] ++ (false, none) :: processBatch [] :=
  c5_zero_weight c5verse c5sync (extract_words_with_svaras c5verse.samhita_lines)
    ⟨["x".data], 0, 1⟩ [] [] [] rfl rfl
    (by
      simp +decide [c5verse, wordWeights, mkWeightInfo, extract_words_with_svaras,
        pySplit, pySplitAux, mkWord, extract_svara_info, scanCodes, countLoop,
        bumpCount, stripMarkers, stripMarkersAux, parse_svara_to_unicode,
        pyReplace3, calculate_svara_weight, SVARA_WEIGHTS, List.enum])

/-- **C6**: a word's duration weight (the `total_weight` used by the
redistribution) equals 0.1 times the character count of its `clean_text`
plus the sum, over the four marker codes, of the table value
{unstressed `'0'`: 0, raised `'1'`: 0, circumflex `'2'`: 0.08,
prolonged `'5'`: 0.20} times that code's occurrence count; in particular the
3-character clean word "agi" carrying one circumflex marker (raw
"ag\x7b2\x7di") has weight 3·0.1 + 0.08 = 0.38. -/
theorem c6_weight_formula :
    (∀ t : List Char, ∀ i : ℕ, ∀ f : Fragment,
      (mkWeightInfo i (f, mkWord t)).total_weight
        = (1/10) * ((mkWord t).clean_text.length : ℚ)
          + (0 * ((mkWord t).svara_counts.c0 : ℚ)
             + 0 * ((mkWord t).svara_counts.c1 : ℚ)
             + (8/100) * ((mkWord t).svara_counts.c2 : ℚ)
             + (20/100) * ((mkWord t).svara_counts.c5 : ℚ))) ∧
    (mkWeightInfo 0 ((⟨[], 0, 0⟩ : Fragment), mkWord "ag\x7b2\x7di".data)).total_weight
      = 38/100 := by
  constructor
  · intro t i f
    simp +decide [mkWeightInfo, mkWord, calculate_svara_weight, SVARA_WEIGHTS]
    ring
  · simp +decide [mkWeightInfo, mkWord, extract_svara_info, scanCodes, countLoop,
      bumpCount, stripMarkers, stripMarkersAux, parse_svara_to_unicode, pyReplace3,
      calculate_svara_weight, SVARA_WEIGHTS]
    norm_num

/-- **C7**: for 3 matched pairs with weights [0.3, 0.5, 0.2] (W = 1.0, from
marker-free words of 3, 5 and 2 characters), original span T = 3.0 s and
first original begin 1.0, the redistributor yields the boundaries
[1.0, 1.9], [1.9, 3.4], [3.4, 4.0]. -/
theorem c7_boundaries :
    (adjFragsOf (adjust_timing c7sync c7words)).map
      (fun l => l.map (fun a => (a.begin, a.endv))) =
    some [((1:ℚ), 19/10), (19/10, 17/5), (17/5, 4)] := by
  simp +decide [c7sync, c7words, adjust_timing, matchedWords,
    extract_words_with_svaras, pySplit, pySplitAux, mkWord, extract_svara_info,
    scanCodes, countLoop, bumpCount, stripMarkers, stripMarkersAux,
    parse_svara_to_unicode, pyReplace3, calculate_svara_weight, SVARA_WEIGHTS,
    wordWeights, mkWeightInfo, adjFragsOf, List.enum]
  norm_num [buildAdjusted, round3, round_eq]

theorem scanCodes_cons_ne (a : Char) (l : List Char) (ha : a ≠ '\x7b') :
    scanCodes (a :: l) = scanCodes l := by
  rw [scanCodes.eq_def]
  split
  · rename_i h
    injection h with h1 h2
    exact absurd h1 ha
  · rename_i h
    injection h with h1 h2
    rw [h2]
  · rename_i h
    cases h

theorem scanCodes_marker (d : Char) (v : List Char) (hd : d.isDigit = true) :
    scanCodes ('\x7b' :: d :: '\x7d' :: v) = d :: scanCodes v := by
  simp [scanCodes, hd]

theorem scanCodes_append_no_brace (u : List Char) (w : List Char)
    (hu : '\x7b' ∉ u) : scanCodes (u ++ w) = scanCodes w := by
  induction u with
  | nil => rfl
  | cons a u ih =>
    have ha : a ≠ '\x7b' := fun h => hu (h ▸ List.mem_cons_self a u)
    rw [List.cons_append, scanCodes_cons_ne a _ ha]
    exact ih (fun h => hu (List.mem_cons_of_mem a h))

theorem stripAux_cons_ne (a : Char) (l : List Char) (ha : a ≠ '\x7b') :
    stripMarkersAux none (a :: l) = a :: stripMarkersAux none l := by
  rw [stripMarkersAux, if_neg ha]

theorem stripAux_marker (d : Char) (v : List Char) (hd : d.isDigit = true) :
    stripMarkersAux none ('\x7b' :: d :: '\x7d' :: v) = stripMarkersAux none v := by
  rw [stripMarkersAux, if_pos rfl, stripMarkersAux, if_pos hd,
    stripMarkersAux, if_neg (by decide), if_pos rfl, if_neg (by simp)]

theorem stripAux_append_no_brace (u : List Char) (w : List Char)
    (hu : '\x7b' ∉ u) :
    stripMarkersAux none (u ++ w) = u ++ stripMarkersAux none w := by
  induction u with
  | nil => rfl
  | cons a u ih =>
    have ha : a ≠ '\x7b' := fun h => hu (h ▸ List.mem_cons_self a u)
    rw [List.cons_append, stripAux_cons_ne a _ ha,
      ih (fun h => hu (List.mem_cons_of_mem a h)), List.cons_append]

theorem bumpCount_unknown (c : Char) (z : SvaraCounts)
    (h0 : c ≠ '0') (h1 : c ≠ '1') (h2 : c ≠ '2') (h5 : c ≠ '5') :
    bumpCount c z = z := by
  simp [bumpCount, h0, h1, h2, h5]

theorem countLoop_counts_append_no_brace (u v : List Char) (c : Char)
    (hd : c.isDigit = true) (h0 : c ≠ '0') (h1 : c ≠ '1') (h2 : c ≠ '2')
    (h5 : c ≠ '5') (hu : '\x7b' ∉ u) (z : SvaraCounts) :
    countLoop (scanCodes (u ++ '\x7b' :: c :: '\x7d' :: v)) z
      = countLoop (scanCodes (u ++ v)) z := by
  rw [scanCodes_append_no_brace u _ hu, scanCodes_append_no_brace u v hu,
    scanCodes_marker c v hd, countLoop, bumpCount_unknown c z h0 h1 h2 h5]

theorem dropWhile_digits_append (ds : List Char) (r : List Char)
    (h : ds.all Char.isDigit = true) :
    (ds ++ r).dropWhile Char.isDigit = r.dropWhile Char.isDigit := by
  induction ds with
  | nil => rfl
  | cons d ds ih =>
    simp only [List.all_cons, Bool.and_eq_true] at h
    rw [List.cons_append, List.dropWhile_cons, if_pos h.1]
    exact ih h.2

theorem takeWhile_digits_append (ds : List Char) (r : List Char)
    (h : ds.all Char.isDigit = true) :
    (ds ++ r).takeWhile Char.isDigit = ds ++ r.takeWhile Char.isDigit := by
  induction ds with
  | nil => rfl
  | cons d ds ih =>
    simp only [List.all_cons, Bool.and_eq_true] at h
    rw [List.cons_append, List.takeWhile_cons, if_pos h.1, ih h.2, List.cons_append]

theorem isMarkerAt_digits_rbrace (ds : List Char) (s : List Char)
    (hds : ds.all Char.isDigit = true) (hne : ds ≠ []) :
    isMarkerAt ('\x7b' :: (ds ++ '\x7d' :: s)) = true := by
  rw [isMarkerAt, dropWhile_digits_append ds _ hds, List.dropWhile_cons,
    if_neg (by decide), takeWhile_digits_append ds _ hds, List.takeWhile_cons,
    if_neg (by decide)]
  simp [hne]

theorem strip_no_marker (s : List Char) :
    (containsMarker s = false → stripMarkersAux none s = s) ∧
    (∀ ds : List Char, ds.all Char.isDigit = true →
      isMarkerAt ('\x7b' :: (ds ++ s)) = false →
      containsMarker s = false →
      stripMarkersAux (some ds) s = '\x7b' :: (ds ++ s)) := by
  induction s with
  | nil =>
    refine ⟨fun _ => rfl, fun ds _ _ _ => ?_⟩
    simp [stripMarkersAux]
  | cons c s' ih =>
    obtain ⟨ihA, ihB⟩ := ih
    constructor
    · intro h
      rw [containsMarker, Bool.or_eq_false_iff] at h
      obtain ⟨h1, h2⟩ := h
      by_cases hc : c = '\x7b'
      · subst hc
        rw [stripMarkersAux, if_pos rfl]
        have hB := ihB [] (by simp) (by simpa using h1) h2
        simpa using hB
      · rw [stripMarkersAux, if_neg hc, ihA h2]
    · intro ds hds hmk h
      rw [containsMarker, Bool.or_eq_false_iff] at h
      obtain ⟨h1, h2⟩ := h
      by_cases hcd : c.isDigit
      · rw [stripMarkersAux, if_pos hcd]
        have hmk' : isMarkerAt ('\x7b' :: ((ds ++ [c]) ++ s')) = false := by
          rw [List.append_assoc]
          simpa using hmk
        have hB := ihB (ds ++ [c]) (by simp [List.all_append, hds, hcd]) hmk' h2
        rw [hB]
        simp
      · by_cases hcr : c = '\x7d'
        · subst hcr
          by_cases hde : ds.isEmpty
          · rw [stripMarkersAux, if_neg hcd, if_pos rfl, if_pos hde, ihA h2]
            have : ds = [] := by simpa using hde
            subst this
            rfl
          · exfalso
            have : ds ≠ [] := by simpa using hde
            rw [isMarkerAt_digits_rbrace ds s' hds this] at hmk
            cases hmk
        · by_cases hcb : c = '\x7b'
          · subst hcb
            rw [stripMarkersAux, if_neg hcd, if_neg hcr, if_pos rfl]
            have hB := ihB [] (by simp) (by simpa using h1) h2
            rw [hB]
            simp
          · rw [stripMarkersAux, if_neg hcd, if_neg hcr, if_neg hcb, ihA h2]
            simp

/-- **C8**: marker stripping is the identity on already-clean text — for
every string that contains zero occurrences of the accent-marker pattern,
the `clean_text` produced by `extract_svara_info` and the output of
`clean_svara_markers` are the identical string (in particular no characters
are reordered). -/
theorem c8_clean_identity (s : List Char) (h : containsMarker s = false) :
    (extract_svara_info s).clean_text = s ∧ clean_svara_markers s = s := by
  have hs : stripMarkers s = s := (strip_no_marker s).1 h
  exact ⟨hs, hs⟩

/-- Witness for C8 at the marker-free string "agni". -/
theorem c8_witness :
    containsMarker "agni".data = false ∧
    (extract_svara_info "agni".data).clean_text = "agni".data ∧
    clean_svara_markers "agni".data = "agni".data :=
  ⟨by decide, (c8_clean_identity "agni".data (by decide)).1,
    (c8_clean_identity "agni".data (by decide)).2⟩

theorem ws_cases (w : Char) (hw : w.isWhitespace = true) :
    w = ' ' ∨ w = '\t' ∨ w = '\r' ∨ w = '\n' := by
  simp [Char.isWhitespace] at hw
  tauto

theorem ws_ne_lbrace (w : Char) (hw : w.isWhitespace = true) : w ≠ '\x7b' := by
  rcases ws_cases w hw with h | h | h | h <;> subst h <;> decide

theorem ws_ne_rbrace (w : Char) (hw : w.isWhitespace = true) : w ≠ '\x7d' := by
  rcases ws_cases w hw with h | h | h | h <;> subst h <;> decide

theorem ws_not_digit (w : Char) (hw : w.isWhitespace = true) :
    w.isDigit = false := by
  rcases ws_cases w hw with h | h | h | h <;> subst h <;> decide

theorem stripAux_none_lbrace (l : List Char) :
    stripMarkersAux none ('\x7b' :: l) = stripMarkersAux (some []) l := by
  rw [stripMarkersAux, if_pos rfl]

theorem stripAux_some_digit (ds : List Char) (c : Char) (l : List Char)
    (hc : c.isDigit = true) :
    stripMarkersAux (some ds) (c :: l) = stripMarkersAux (some (ds ++ [c])) l := by
  rw [stripMarkersAux, if_pos hc]

theorem stripAux_some_rbrace_empty (l : List Char) :
    stripMarkersAux (some []) ('\x7d' :: l)
      = '\x7b' :: '\x7d' :: stripMarkersAux none l := by
  rw [stripMarkersAux, if_neg (by decide), if_pos rfl, if_pos (by decide)]

theorem stripAux_some_rbrace_ne (ds : List Char) (l : List Char)
    (hds : ds ≠ []) :
    stripMarkersAux (some ds) ('\x7d' :: l) = stripMarkersAux none l := by
  rw [stripMarkersAux, if_neg (by decide), if_pos rfl, if_neg (by simpa using hds)]

theorem stripAux_some_lbrace (ds : List Char) (l : List Char) :
    stripMarkersAux (some ds) ('\x7b' :: l)
      = ('\x7b' :: ds) ++ stripMarkersAux (some []) l := by
  rw [stripMarkersAux, if_neg (by decide), if_neg (by decide), if_pos rfl]

theorem stripAux_some_other (ds : List Char) (c : Char) (l : List Char)
    (hcd : c.isDigit = false) (hcr : c ≠ '\x7d') (hcb : c ≠ '\x7b') :
    stripMarkersAux (some ds) (c :: l)
      = ('\x7b' :: ds) ++ (c :: stripMarkersAux none l) := by
  rw [stripMarkersAux, if_neg (by simp [hcd]), if_neg hcr, if_neg hcb]

theorem stripAux_ws_split (w : Char) (hw : w.isWhitespace = true) :
    ∀ (s : List Char) (pend : Option (List Char)) (t : List Char),
      stripMarkersAux pend (s ++ w :: t)
        = stripMarkersAux pend s ++ w :: stripMarkersAux none t := by
  intro s
  induction s with
  | nil =>
    intro pend t
    cases pend with
    | none =>
      rw [List.nil_append, stripAux_cons_ne w t (ws_ne_lbrace w hw)]
      rfl
    | some ds =>
      rw [List.nil_append, stripAux_some_other ds w t (ws_not_digit w hw)
        (ws_ne_rbrace w hw) (ws_ne_lbrace w hw)]
      rfl
  | cons c s' ih =>
    intro pend t
    cases pend with
    | none =>
      by_cases hc : c = '\x7b'
      · subst hc
        rw [List.cons_append, stripAux_none_lbrace, stripAux_none_lbrace,
          ih (some []) t]
      · rw [List.cons_append, stripAux_cons_ne c _ hc, stripAux_cons_ne c _ hc,
          ih none t, List.cons_append]
    | some ds =>
      by_cases hcd : c.isDigit
      · rw [List.cons_append, stripAux_some_digit ds c _ hcd,
          stripAux_some_digit ds c _ hcd, ih (some (ds ++ [c])) t]
      · by_cases hcr : c = '\x7d'
        · subst hcr
          cases ds with
          | nil =>
            rw [List.cons_append, stripAux_some_rbrace_empty,
              stripAux_some_rbrace_empty, ih none t]
            rfl
          | cons d ds' =>
            rw [List.cons_append, stripAux_some_rbrace_ne _ _ (by simp),
              stripAux_some_rbrace_ne _ _ (by simp), ih none t]
        · by_cases hcb : c = '\x7b'
          · subst hcb
            rw [List.cons_append, stripAux_some_lbrace, stripAux_some_lbrace,
              ih (some []) t, List.append_assoc]
          · rw [List.cons_append,
              stripAux_some_other ds c _ (by simpa using hcd) hcr hcb,
              stripAux_some_other ds c _ (by simpa using hcd) hcr hcb,
              ih none t, List.append_assoc]
            rfl

theorem splitAux_none_ws (w : Char) (t : List Char) (hw : w.isWhitespace = true) :
    pySplitAux none (w :: t) = pySplitAux none t := by
  rw [pySplitAux, if_pos hw]

theorem splitAux_none_nonws (c : Char) (t : List Char)
    (hc : c.isWhitespace = false) :
    pySplitAux none (c :: t) = pySplitAux (some [c]) t := by
  rw [pySplitAux, if_neg (by simp [hc])]

theorem splitAux_some_ws (acc : List Char) (w : Char) (t : List Char)
    (hw : w.isWhitespace = true) :
    pySplitAux (some acc) (w :: t) = acc :: pySplitAux none t := by
  rw [pySplitAux, if_pos hw]

theorem splitAux_some_nonws (acc : List Char) (c : Char) (t : List Char)
    (hc : c.isWhitespace = false) :
    pySplitAux (some acc) (c :: t) = pySplitAux (some (acc ++ [c])) t := by
  rw [pySplitAux, if_neg (by simp [hc])]

theorem splitAux_acc_token (tk : List Char)
    (hnws : ∀ c ∈ tk, c.isWhitespace = false) :
    ∀ (acc : List Char) (r : List Char),
      pySplitAux (some acc) (tk ++ r) = pySplitAux (some (acc ++ tk)) r := by
  induction tk with
  | nil => intro acc r; rw [List.nil_append, List.append_nil]
  | cons c tk' ih =>
    intro acc r
    rw [List.cons_append, splitAux_some_nonws acc c _
      (hnws c (List.mem_cons_self c tk'))]
    rw [ih (fun x hx => hnws x (List.mem_cons_of_mem c hx)) (acc ++ [c]) r]
    simp

theorem splitAux_none_token (tk : List Char) (r : List Char) (htk : tk ≠ [])
    (hnws : ∀ c ∈ tk, c.isWhitespace = false) :
    pySplitAux none (tk ++ r) = pySplitAux (some tk) r := by
  cases tk with
  | nil => exact absurd rfl htk
  | cons c tk' =>
    rw [List.cons_append, splitAux_none_nonws c _
      (hnws c (List.mem_cons_self c tk'))]
    rw [splitAux_acc_token tk' (fun x hx => hnws x (List.mem_cons_of_mem c hx))
      [c] r]
    rfl

theorem splitAux_all_nonws (tk : List Char)
    (hnws : ∀ c ∈ tk, c.isWhitespace = false) :
    pySplit tk = if tk.isEmpty then [] else [tk] := by
  cases htk : tk with
  | nil => rfl
  | cons c tk' =>
    subst htk
    have h0 : pySplit (c :: tk') = pySplitAux none ((c :: tk') ++ []) := by
      rw [List.append_nil]
      rfl
    rw [h0, splitAux_none_token (c :: tk') [] (by simp) hnws]
    rfl

theorem stripAux_nonws (s : List Char) :
    ∀ pend : Option (List Char),
      (∀ c ∈ s, c.isWhitespace = false) →
      (∀ ds, pend = some ds → ∀ c ∈ ds, c.isWhitespace = false) →
      ∀ c ∈ stripMarkersAux pend s, c.isWhitespace = false := by
  induction s with
  | nil =>
    intro pend _ hpend c hc
    cases pend with
    | none => cases hc
    | some ds =>
      rw [show stripMarkersAux (some ds) [] = '\x7b' :: ds from rfl] at hc
      rcases List.mem_cons.mp hc with h | h
      · subst h; decide
      · exact hpend ds rfl c h
  | cons a s' ih =>
    intro pend hs hpend c hc
    have hs' : ∀ x ∈ s', x.isWhitespace = false :=
      fun x hx => hs x (List.mem_cons_of_mem a hx)
    have ha : a.isWhitespace = false := hs a (List.mem_cons_self a s')
    cases pend with
    | none =>
      by_cases hab : a = '\x7b'
      · subst hab
        rw [stripAux_none_lbrace] at hc
        exact ih (some []) hs' (by intro ds h; injection h with h; subst h; intro x hx; cases hx) c hc
      · rw [stripAux_cons_ne a s' hab] at hc
        rcases List.mem_cons.mp hc with h | h
        · subst h; exact ha
        · exact ih none hs' (by intro ds h; cases h) c h
    | some ds =>
      have hds : ∀ x ∈ ds, x.isWhitespace = false := hpend ds rfl
      by_cases hcd : a.isDigit
      · rw [stripAux_some_digit ds a s' hcd] at hc
        refine ih (some (ds ++ [a])) hs' ?_ c hc
        intro ds' h
        injection h with h
        subst h
        intro x hx
        rcases List.mem_append.mp hx with h | h
        · exact hds x h
        · rw [List.mem_singleton.mp h]; exact ha
      · by_cases hcr : a = '\x7d'
        · subst hcr
          cases ds with
          | nil =>
            rw [stripAux_some_rbrace_empty] at hc
            rcases List.mem_cons.mp hc with h | h
            · subst h; decide
            · rcases List.mem_cons.mp h with h' | h'
              · subst h'; decide
              · exact ih none hs' (by intro ds h; cases h) c h'
          | cons d ds' =>
            rw [stripAux_some_rbrace_ne _ _ (by simp)] at hc
            exact ih none hs' (by intro ds h; cases h) c hc
        · by_cases hcb : a = '\x7b'
          · subst hcb
            rw [stripAux_some_lbrace] at hc
            rcases List.mem_append.mp hc with h | h
            · rcases List.mem_cons.mp h with h' | h'
              · subst h'; decide
              · exact hds c h'
            · exact ih (some []) hs' (by intro ds h; injection h with h; subst h; intro x hx; cases hx) c h
          · rw [stripAux_some_other ds a s' (by simpa using hcd) hcr hcb] at hc
            rcases List.mem_append.mp hc with h | h
            · rcases List.mem_cons.mp h with h' | h'
              · subst h'; decide
              · exact hds c h'
            · rcases List.mem_cons.mp h with h' | h'
              · subst h'; exact ha
              · exact ih none hs' (by intro ds h; cases h) c h'

theorem stripMarkers_nonws (t : List Char)
    (h : ∀ c ∈ t, c.isWhitespace = false) :
    ∀ c ∈ stripMarkers t, c.isWhitespace = false :=
  stripAux_nonws t none h (by intro ds hds; cases hds)

theorem splitAux_tokens_nonws (l : List Char) :
    ∀ pend : Option (List Char),
      (∀ acc, pend = some acc → ∀ c ∈ acc, c.isWhitespace = false) →
      ∀ tok ∈ pySplitAux pend l, ∀ c ∈ tok, c.isWhitespace = false := by
  induction l with
  | nil =>
    intro pend hpend tok htok
    cases pend with
    | none => cases htok
    | some acc =>
      rw [show pySplitAux (some acc) [] = [acc] from rfl] at htok
      rw [List.mem_singleton.mp htok]
      exact hpend acc rfl
  | cons a l' ih =>
    intro pend hpend tok htok
    cases pend with
    | none =>
      by_cases ha : a.isWhitespace
      · rw [splitAux_none_ws a l' ha] at htok
        exact ih none (by intro acc h; cases h) tok htok
      · rw [splitAux_none_nonws a l' (by simpa using ha)] at htok
        refine ih (some [a]) ?_ tok htok
        intro acc h
        injection h with h
        subst h
        intro c hc
        rw [List.mem_singleton.mp hc]
        simpa using ha
    | some acc =>
      by_cases ha : a.isWhitespace
      · rw [splitAux_some_ws acc a l' ha] at htok
        rcases List.mem_cons.mp htok with h | h
        · rw [h]; exact hpend acc rfl
        · exact ih none (by intro x hx; cases hx) tok h
      · rw [splitAux_some_nonws acc a l' (by simpa using ha)] at htok
        refine ih (some (acc ++ [a])) ?_ tok htok
        intro acc' h
        injection h with h
        subst h
        intro c hc
        rcases List.mem_append.mp hc with h | h
        · exact hpend acc rfl c h
        · rw [List.mem_singleton.mp h]; simpa using ha

theorem pySplit_tokens_nonws (l : List Char) :
    ∀ tok ∈ pySplit l, ∀ c ∈ tok, c.isWhitespace = false :=
  splitAux_tokens_nonws l none (by intro acc h; cases h)

theorem splitAux_tokens_ne_nil (l : List Char) :
    ∀ pend : Option (List Char),
      (∀ acc, pend = some acc → acc ≠ []) →
      ∀ tok ∈ pySplitAux pend l, tok ≠ [] := by
  induction l with
  | nil =>
    intro pend hpend tok htok
    cases pend with
    | none => cases htok
    | some acc =>
      rw [show pySplitAux (some acc) [] = [acc] from rfl] at htok
      rw [List.mem_singleton.mp htok]
      exact hpend acc rfl
  | cons a l' ih =>
    intro pend hpend tok htok
    cases pend with
    | none =>
      by_cases ha : a.isWhitespace
      · rw [splitAux_none_ws a l' ha] at htok
        exact ih none (by intro acc h; cases h) tok htok
      · rw [splitAux_none_nonws a l' (by simpa using ha)] at htok
        exact ih (some [a]) (by intro acc h; injection h with h; subst h; simp)
          tok htok
    | some acc =>
      by_cases ha : a.isWhitespace
      · rw [splitAux_some_ws acc a l' ha] at htok
        rcases List.mem_cons.mp htok with h | h
        · rw [h]; exact hpend acc rfl
        · exact ih none (by intro x hx; cases hx) tok h
      · rw [splitAux_some_nonws acc a l' (by simpa using ha)] at htok
        refine ih (some (acc ++ [a])) ?_ tok htok
        intro acc' h
        injection h with h
        subst h
        simp

theorem pySplit_tokens_ne_nil (l : List Char) :
    ∀ tok ∈ pySplit l, tok ≠ [] :=
  splitAux_tokens_ne_nil l none (by intro acc h; cases h)

theorem dropWhile_ws_eq_self (l : List Char)
    (h : ∀ c ∈ l, c.isWhitespace = false) :
    l.dropWhile Char.isWhitespace = l := by
  cases l with
  | nil => rfl
  | cons c l' =>
    rw [List.dropWhile_cons, if_neg (by simp [h c (List.mem_cons_self c l')])]

theorem pyStrip_eq_self (t : List Char)
    (h : ∀ c ∈ t, c.isWhitespace = false) : pyStrip t = t := by
  rw [pyStrip, dropWhile_ws_eq_self t h,
    dropWhile_ws_eq_self t.reverse (fun c hc => h c (List.mem_reverse.mp hc)),
    List.reverse_reverse]

theorem pySplit_cons_ws (c : Char) (t : List Char) (hw : c.isWhitespace = true) :
    pySplit (c :: t) = pySplit t :=
  splitAux_none_ws c t hw

theorem dropWhile_head_not (p : Char → Bool) (l : List Char) :
    ∀ (c : Char) (t : List Char), l.dropWhile p = c :: t → p c = false := by
  induction l with
  | nil => intro c t h; cases h
  | cons a l' ih =>
    intro c t h
    rw [List.dropWhile_cons] at h
    by_cases ha : p a
    · rw [if_pos ha] at h
      exact ih c t h
    · rw [if_neg ha] at h
      injection h with h1 _
      rw [← h1]
      simpa using ha

theorem split_strip_comm : ∀ (n : ℕ) (s : List Char), s.length ≤ n →
    pySplit (stripMarkers s)
      = ((pySplit s).map stripMarkers).filter (fun w => !w.isEmpty) := by
  intro n
  induction n with
  | zero =>
    intro s hs
    have : s = [] := List.length_eq_zero.mp (Nat.le_zero.mp hs)
    subst this
    rfl
  | succ n ih =>
    intro s hs
    cases s with
    | nil => rfl
    | cons c s' =>
      by_cases hws : c.isWhitespace
      · have e1 : stripMarkers (c :: s') = c :: stripMarkers s' :=
          stripAux_cons_ne c s' (ws_ne_lbrace c hws)
        rw [show stripMarkers (c :: s') = stripMarkersAux none (c :: s') from rfl] at e1
        rw [show stripMarkers (c :: s') = stripMarkersAux none (c :: s') from rfl,
          e1, pySplit_cons_ws c _ hws, pySplit_cons_ws c _ hws]
        exact ih s' (by simpa using Nat.le_of_succ_le_succ (by simpa using hs))
      · have hc : c.isWhitespace = false := by simpa using hws
        have htkeq : (c :: s').takeWhile (fun x => !x.isWhitespace)
            = c :: s'.takeWhile (fun x => !x.isWhitespace) := by
          rw [List.takeWhile_cons, if_pos (by simp [hc])]
        set tk := (c :: s').takeWhile (fun x => !x.isWhitespace) with htk
        set r := (c :: s').dropWhile (fun x => !x.isWhitespace) with hr
        have hsplit : tk ++ r = c :: s' :=
          List.takeWhile_append_dropWhile (fun x => !x.isWhitespace) (c :: s')
        have htknn : tk ≠ [] := by rw [htkeq]; simp
        have htkws : ∀ x ∈ tk, x.isWhitespace = false := by
          intro x hx
          have := List.mem_takeWhile_imp hx
          simpa using this
        have hlen : tk.length + r.length = s'.length + 1 := by
          have := congrArg List.length hsplit
          simpa using this
        have htklen : 1 ≤ tk.length := by
          rw [htkeq]
          simp
        rw [← hsplit]
        cases hrc : r with
        | nil =>
          rw [List.append_nil]
          have hstknws : ∀ x ∈ stripMarkers tk, x.isWhitespace = false :=
            stripMarkers_nonws tk htkws
          rw [splitAux_all_nonws (stripMarkers tk) hstknws,
            splitAux_all_nonws tk htkws]
          rw [show tk.isEmpty = false by simpa [List.isEmpty_iff] using htknn]
          by_cases hemp : (stripMarkers tk).isEmpty
          · rw [hemp]
            simp [List.filter, hemp]
          · rw [show (stripMarkers tk).isEmpty = false by simpa using hemp]
            simp [List.filter, show (stripMarkers tk).isEmpty = false by simpa using hemp]
        | cons w r' =>
          have hwws : w.isWhitespace = true := by
            have := dropWhile_head_not (fun x => !x.isWhitespace) (c :: s') w r' (by rw [← hr, hrc])
            simpa using this
          have hr'len : r'.length ≤ n := by
            have : r.length ≤ s'.length := by omega
            rw [hrc] at this
            simp at this
            simp at hs
            omega
          rw [show stripMarkers (tk ++ w :: r') = stripMarkersAux none (tk ++ w :: r') from rfl,
            stripAux_ws_split w hwws tk none r']
          rw [show pySplit (tk ++ w :: r') = pySplitAux none (tk ++ w :: r') from rfl,
            splitAux_none_token tk (w :: r') htknn htkws,
            splitAux_some_ws tk w r' hwws]
          rw [List.map_cons, List.filter_cons]
          by_cases hemp : stripMarkers tk = []
          · have hemp' : stripMarkersAux none tk = [] := hemp
            rw [hemp', List.nil_append, hemp,
              show pySplit (w :: stripMarkersAux none r')
                = pySplitAux none (w :: stripMarkersAux none r') from rfl,
              splitAux_none_ws w _ hwws]
            rw [show (!(([] : List Char).isEmpty)) = false by simp,
              if_neg (by simp)]
            exact ih r' hr'len
          · rw [show pySplit (stripMarkersAux none tk ++ w :: stripMarkersAux none r')
                = pySplitAux none (stripMarkersAux none tk ++ w :: stripMarkersAux none r')
                from rfl,
              splitAux_none_token (stripMarkersAux none tk)
                (w :: stripMarkersAux none r') hemp (stripMarkers_nonws tk htkws),
              splitAux_some_ws _ w _ hwws]
            rw [show (stripMarkers tk).isEmpty = false by
              simpa [List.isEmpty_iff] using hemp]
            rw [if_pos (show (!false) = true by simp)]
            exact congrArg (fun z => stripMarkersAux none tk :: z) (ih r' hr'len)

theorem line_tokens_eq (s : List Char)
    (hne : ∀ t ∈ pySplit s, stripMarkers t ≠ []) :
    ((pySplit s).map mkWord).map (fun w => w.clean_text)
      = ((pySplit (clean_svara_markers s)).map pyStrip).filter
          (fun w => !w.isEmpty) := by
  have h1 : (pySplit (clean_svara_markers s)).map pyStrip
      = pySplit (clean_svara_markers s) := by
    rw [List.map_congr_left (fun t ht =>
      pyStrip_eq_self t (pySplit_tokens_nonws _ t ht))]
    exact List.map_id _
  rw [h1, List.filter_eq_self.mpr (fun t ht => by
    simpa [List.isEmpty_iff] using pySplit_tokens_ne_nil _ t ht)]
  have h3 : ((pySplit s).map mkWord).map (fun w => w.clean_text)
      = (pySplit s).map stripMarkers := by
    rw [List.map_map]
    rfl
  rw [h3, show clean_svara_markers s = stripMarkers s from rfl,
    split_strip_comm s.length s le_rfl]
  symm
  apply List.filter_eq_self.mpr
  intro t ht
  obtain ⟨u, hu, rfl⟩ := List.mem_map.mp ht
  simpa [List.isEmpty_iff] using hne u hu

theorem eww_cons_str (s : List Char) (ls : List Line) :
    extract_words_with_svaras (Line.str s :: ls)
      = (pySplit s).map mkWord ++ extract_words_with_svaras ls := by
  simp [extract_words_with_svaras]

theorem ews_cons_str (s : List Char) (ls : List Line) :
    extract_words_from_samhita ⟨Line.str s :: ls⟩
      = ((pySplit (clean_svara_markers s)).map pyStrip).filter
          (fun w => !w.isEmpty) ++ extract_words_from_samhita ⟨ls⟩ := by
  simp [extract_words_from_samhita]

/-- Counterexample for C10 as stated: the all-plain-string verse whose
middle token "\x7b1\x7d" is a bare marker.  The postprocess tokenizer keeps
it as a word with empty clean text; the text-extraction tokenizer drops it,
so the two word sequences differ even though every line is a plain string. -/
theorem c10_counterexample :
    (extract_words_with_svaras c10lines).map (fun w => w.clean_text)
      = ["a".data, [], "b".data] ∧
    extract_words_from_samhita ⟨c10lines⟩ = ["a".data, "b".data] ∧
    (["a".data, [], "b".data] : List (List Char)) ≠ ["a".data, "b".data] :=
  ⟨by decide, by decide, by decide⟩

/-- **C10** (corrected): the postprocess tokenizer processes only
plain-string lines and skips list lines, while the text-extraction tokenizer
also descends into list lines.  For verses all of whose lines are plain
strings *and in which no whitespace-delimited token consists solely of
markers* (every token's clean text is non-empty), the two tokenizers produce
the same word sequence (clean texts, in order); a verse with a nested-list
line can produce different word counts (the concrete `c10nested` yields 0
words against 1). -/
theorem c10_tokenizers (lines : List Line)
    (h : ∀ l ∈ lines, ∃ s, l = Line.str s ∧
        ∀ t ∈ pySplit s, stripMarkers t ≠ []) :
    (extract_words_with_svaras lines).map (fun w => w.clean_text)
      = extract_words_from_samhita ⟨lines⟩ ∧
    extract_words_with_svaras c10nested = [] ∧
    extract_words_from_samhita ⟨c10nested⟩ = ["agni".data] := by
  have main : ∀ ll : List Line,
      (∀ l ∈ ll, ∃ s, l = Line.str s ∧ ∀ t ∈ pySplit s, stripMarkers t ≠ []) →
      (extract_words_with_svaras ll).map (fun w => w.clean_text)
        = extract_words_from_samhita ⟨ll⟩ := by
    intro ll
    induction ll with
    | nil => intro _; rfl
    | cons l ls ih =>
      intro hh
      obtain ⟨s, rfl, hs⟩ := hh l (List.mem_cons_self l ls)
      rw [eww_cons_str, ews_cons_str, List.map_append,
        line_tokens_eq s hs,
        ih (fun x hx => hh x (List.mem_cons_of_mem (Line.str s) hx))]
  exact ⟨main lines h, by decide, by decide⟩

/-- Witness for the amended C10 at a concrete all-plain-string verse. -/
theorem c10_witness :
    (extract_words_with_svaras [Line.str "agni ile".data]).map
        (fun w => w.clean_text)
      = extract_words_from_samhita ⟨[Line.str "agni ile".data]⟩ ∧
    extract_words_with_svaras c10nested = [] ∧
    extract_words_from_samhita ⟨c10nested⟩ = ["agni".data] :=
  c10_tokenizers [Line.str "agni ile".data] (by
    intro l hl
    rw [List.mem_singleton.mp hl]
    exact ⟨"agni ile".data, rfl, by decide⟩)

theorem digit_ne_lbrace (c : Char) (h : c.isDigit = true) : c ≠ '\x7b' := by
  intro heq
  rw [heq] at h
  exact absurd h (by decide)

theorem digit_ne_rbrace (c : Char) (h : c.isDigit = true) : c ≠ '\x7d' := by
  intro heq
  rw [heq] at h
  exact absurd h (by decide)

theorem digits_no_brace (ds : List Char) (h : ds.all Char.isDigit = true) :
    '\x7b' ∉ ds := by
  intro hmem
  have := List.all_eq_true.mp h _ hmem
  exact absurd this (by decide)

theorem tokWF_cons {t : Tok} {ss : List Tok} (h : tokWF (t :: ss) = true) :
    tokOK t = true ∧ tokWF ss = true := by
  simpa [tokWF] using h

theorem render_cons (t : Tok) (ss : List Tok) :
    render (t :: ss) = renderTok t ++ render ss := by
  simp [render]

theorem render_append (ss tt : List Tok) :
    render (ss ++ tt) = render ss ++ render tt := by
  simp [render]

theorem codesOf_cons (t : Tok) (ss : List Tok) :
    codesOf (t :: ss) = codeEvents t ++ codesOf ss := by
  simp [codesOf]

theorem codesOf_append (ss tt : List Tok) :
    codesOf (ss ++ tt) = codesOf ss ++ codesOf tt := by
  simp [codesOf]

theorem cleanOf_cons (t : Tok) (ss : List Tok) :
    cleanOf (t :: ss) = cleanEvents t ++ cleanOf ss := by
  simp [cleanOf]

theorem cleanOf_append (ss tt : List Tok) :
    cleanOf (ss ++ tt) = cleanOf ss ++ cleanOf tt := by
  simp [cleanOf]

theorem countLoop_append :
    ∀ (A B : List Char) (z : SvaraCounts),
      countLoop (A ++ B) z = countLoop B (countLoop A z) := by
  intro A
  induction A with
  | nil => intro B z; rfl
  | cons a A' ih =>
    intro B z
    rw [List.cons_append, countLoop, countLoop]
    exact ih B (bumpCount a z)

theorem scanCodes_lbrace_stuck (a b : Char) (l : List Char) (hb : b ≠ '\x7d') :
    scanCodes ('\x7b' :: a :: b :: l) = scanCodes (a :: b :: l) := by
  rw [scanCodes.eq_def]
  split
  · rename_i h
    injection h with h1 h2
    injection h2 with h3 h4
    injection h4 with h5 h6
    exact absurd h5 hb
  · rename_i h
    injection h with h1 h2
    rw [h2]
  · rename_i h
    cases h

theorem stripAux_digits :
    ∀ (ds : List Char), ds.all Char.isDigit = true →
      ∀ (p Y : List Char),
        stripMarkersAux (some p) (ds ++ Y) = stripMarkersAux (some (p ++ ds)) Y := by
  intro ds
  induction ds with
  | nil => intro _ p Y; simp
  | cons d ds' ih =>
    intro h p Y
    simp only [List.all_cons, Bool.and_eq_true] at h
    rw [List.cons_append, stripAux_some_digit p d _ h.1, ih h.2 (p ++ [d]) Y]
    simp

theorem stripAux_marker_gen (ds : List Char) (hne : ds ≠ [])
    (hds : ds.all Char.isDigit = true) (X : List Char) :
    stripMarkersAux none ('\x7b' :: (ds ++ '\x7d' :: X)) = stripMarkersAux none X := by
  rw [stripAux_none_lbrace, stripAux_digits ds hds [] ('\x7d' :: X),
    List.nil_append, stripAux_some_rbrace_ne ds _ hne]

theorem scanCodes_marker_gen (ds : List Char) (hne : ds ≠ [])
    (hds : ds.all Char.isDigit = true) (X : List Char) :
    scanCodes ('\x7b' :: (ds ++ '\x7d' :: X))
      = codeEvents (Tok.marker ds) ++ scanCodes X := by
  cases ds with
  | nil => exact absurd rfl hne
  | cons d ds' =>
    cases ds' with
    | nil =>
      have hd : d.isDigit = true := by simpa using hds
      rw [show ('\x7b' :: ([d] ++ '\x7d' :: X)) = '\x7b' :: d :: '\x7d' :: X from rfl,
        scanCodes_marker d X hd]
      rfl
    | cons d2 ds'' =>
      simp only [List.all_cons, Bool.and_eq_true] at hds
      rw [show ('\x7b' :: ((d :: d2 :: ds'') ++ '\x7d' :: X))
          = '\x7b' :: d :: d2 :: (ds'' ++ '\x7d' :: X) from by simp,
        scanCodes_lbrace_stuck d d2 _ (digit_ne_rbrace d2 hds.2.1),
        show (d :: d2 :: (ds'' ++ '\x7d' :: X))
          = (d :: d2 :: ds'') ++ ('\x7d' :: X) from by simp,
        scanCodes_append_no_brace (d :: d2 :: ds'') _
          (digits_no_brace _ (by simp [hds.1, hds.2.1, hds.2.2])),
        scanCodes_cons_ne '\x7d' X (by decide)]
      rfl

theorem scanCodes_render :
    ∀ (ss : List Tok), tokWF ss = true →
      ∀ X : List Char, scanCodes (render ss ++ X) = codesOf ss ++ scanCodes X := by
  intro ss
  induction ss with
  | nil => intro _ X; simp [render, codesOf]
  | cons t ss' ih =>
    intro h X
    obtain ⟨ht, hss'⟩ := tokWF_cons h
    cases t with
    | ch c =>
      have hc : c ≠ '\x7b' := by simpa [tokOK] using ht
      rw [render_cons, show renderTok (Tok.ch c) = [c] from rfl,
        show ([c] ++ render ss') ++ X = c :: (render ss' ++ X) by simp,
        scanCodes_cons_ne c _ hc, ih hss' X, codesOf_cons,
        show codeEvents (Tok.ch c) = [] from rfl, List.nil_append]
    | marker code =>
      have hcode : code ≠ [] ∧ code.all Char.isDigit = true := by
        simp only [tokOK, Bool.and_eq_true, Bool.not_eq_true'] at ht
        exact ⟨by simpa [List.isEmpty_iff] using ht.1, ht.2⟩
      rw [render_cons,
        show renderTok (Tok.marker code) = '\x7b' :: code ++ ['\x7d'] from rfl,
        show (('\x7b' :: code ++ ['\x7d']) ++ render ss') ++ X
          = '\x7b' :: (code ++ '\x7d' :: (render ss' ++ X)) by simp,
        scanCodes_marker_gen code hcode.1 hcode.2 (render ss' ++ X),
        ih hss' X, codesOf_cons, List.append_assoc]

theorem strip_render :
    ∀ (ss : List Tok), tokWF ss = true →
      ∀ X : List Char,
        stripMarkersAux none (render ss ++ X)
          = cleanOf ss ++ stripMarkersAux none X := by
  intro ss
  induction ss with
  | nil => intro _ X; simp [render, cleanOf]
  | cons t ss' ih =>
    intro h X
    obtain ⟨ht, hss'⟩ := tokWF_cons h
    cases t with
    | ch c =>
      have hc : c ≠ '\x7b' := by simpa [tokOK] using ht
      rw [render_cons, show renderTok (Tok.ch c) = [c] from rfl,
        show ([c] ++ render ss') ++ X = c :: (render ss' ++ X) by simp,
        stripAux_cons_ne c _ hc, ih hss' X, cleanOf_cons,
        show cleanEvents (Tok.ch c) = [c] from rfl]
      simp
    | marker code =>
      have hcode : code ≠ [] ∧ code.all Char.isDigit = true := by
        simp only [tokOK, Bool.and_eq_true, Bool.not_eq_true'] at ht
        exact ⟨by simpa [List.isEmpty_iff] using ht.1, ht.2⟩
      rw [render_cons,
        show renderTok (Tok.marker code) = '\x7b' :: code ++ ['\x7d'] from rfl,
        show (('\x7b' :: code ++ ['\x7d']) ++ render ss') ++ X
          = '\x7b' :: (code ++ '\x7d' :: (render ss' ++ X)) by simp,
        stripAux_marker_gen code hcode.1 hcode.2 (render ss' ++ X),
        ih hss' X, cleanOf_cons,
        show cleanEvents (Tok.marker code) = [] from rfl, List.nil_append]

theorem scanCodes_render_nil (ss : List Tok) (h : tokWF ss = true) :
    scanCodes (render ss) = codesOf ss := by
  have := scanCodes_render ss h []
  rw [List.append_nil] at this
  rw [this, show scanCodes ([] : List Char) = [] from rfl, List.append_nil]

theorem strip_render_nil (ss : List Tok) (h : tokWF ss = true) :
    stripMarkers (render ss) = cleanOf ss := by
  have := strip_render ss h []
  rw [List.append_nil] at this
  rw [stripMarkers, this,
    show stripMarkersAux none ([] : List Char) = [] from rfl, List.append_nil]

/-- **C9**: for every raw token built from ordinary characters and inline
markers (stray left braces outside markers excluded by `tokWF`), a marker
whose code is unrecognized — any digit string other than the four known
single-digit codes `'0'`,`'1'`,`'2'`,`'5'`, including every multi-digit
code — contributes zero to every marker count and zero to the word's
weight, and is removed from `clean_text`; the parse is a total function, so
an unknown code never causes an error.  The surrounding segments may
contain any number of other markers. -/
theorem c9_unknown_code (ss tt : List Tok) (cs : List Char)
    (hss : tokWF ss = true) (htt : tokWF tt = true)
    (hne : cs ≠ []) (hdig : cs.all Char.isDigit = true)
    (hunk : ∀ d : Char, cs = [d] → d ≠ '0' ∧ d ≠ '1' ∧ d ≠ '2' ∧ d ≠ '5') :
    (extract_svara_info (render (ss ++ Tok.marker cs :: tt))).svara_counts
        = (extract_svara_info (render (ss ++ tt))).svara_counts ∧
    (extract_svara_info (render (ss ++ Tok.marker cs :: tt))).clean_text
        = (extract_svara_info (render (ss ++ tt))).clean_text ∧
    (mkWord (render (ss ++ Tok.marker cs :: tt))).weight
        = (mkWord (render (ss ++ tt))).weight := by
  have hmk : tokOK (Tok.marker cs) = true := by
    simp only [tokOK, Bool.and_eq_true, Bool.not_eq_true']
    exact ⟨by simpa [List.isEmpty_iff] using hne, hdig⟩
  have hwf1 : tokWF (ss ++ Tok.marker cs :: tt) = true := by
    simp only [tokWF, List.all_append, List.all_cons, Bool.and_eq_true]
    exact ⟨hss, hmk, htt⟩
  have hwf2 : tokWF (ss ++ tt) = true := by
    simp only [tokWF, List.all_append, Bool.and_eq_true]
    exact ⟨hss, htt⟩
  have hcounts :
      (extract_svara_info (render (ss ++ Tok.marker cs :: tt))).svara_counts
        = (extract_svara_info (render (ss ++ tt))).svara_counts := by
    show countLoop (scanCodes (render (ss ++ Tok.marker cs :: tt))) ⟨0, 0, 0, 0⟩
      = countLoop (scanCodes (render (ss ++ tt))) ⟨0, 0, 0, 0⟩
    rw [scanCodes_render_nil _ hwf1, scanCodes_render_nil _ hwf2,
      codesOf_append, codesOf_append, codesOf_cons]
    simp only [countLoop_append]
    congr 1
    cases cs with
    | nil => exact absurd rfl hne
    | cons d cs' =>
      cases cs' with
      | nil =>
        obtain ⟨h0, h1, h2, h5⟩ := hunk d rfl
        show countLoop [d] _ = _
        rw [countLoop, countLoop, bumpCount_unknown d _ h0 h1 h2 h5]
      | cons d2 cs'' => rfl
  refine ⟨hcounts, ?_, ?_⟩
  · show stripMarkers (render (ss ++ Tok.marker cs :: tt))
      = stripMarkers (render (ss ++ tt))
    rw [strip_render_nil _ hwf1, strip_render_nil _ hwf2, cleanOf_append,
      cleanOf_append, cleanOf_cons,
      show cleanEvents (Tok.marker cs) = [] from rfl, List.nil_append]
  · show calculate_svara_weight
        (extract_svara_info (render (ss ++ Tok.marker cs :: tt))).svara_counts
      = calculate_svara_weight
        (extract_svara_info (render (ss ++ tt))).svara_counts
    rw [hcounts]

/-- Witness for C9: the token a\x7b1\x7dx\x7b7\x7db — an unknown
single-digit marker following a known marker — and the token a\x7b12\x7db
with a multi-digit unknown code. -/
theorem c9_witness :
    ((extract_svara_info (render ([Tok.ch 'a', Tok.marker ['1'], Tok.ch 'x']
          ++ Tok.marker ['7'] :: [Tok.ch 'b']))).svara_counts
        = (extract_svara_info (render ([Tok.ch 'a', Tok.marker ['1'], Tok.ch 'x']
          ++ [Tok.ch 'b']))).svara_counts ∧
      (extract_svara_info (render ([Tok.ch 'a', Tok.marker ['1'], Tok.ch 'x']
          ++ Tok.marker ['7'] :: [Tok.ch 'b']))).clean_text
        = (extract_svara_info (render ([Tok.ch 'a', Tok.marker ['1'], Tok.ch 'x']
          ++ [Tok.ch 'b']))).clean_text ∧
      (mkWord (render ([Tok.ch 'a', Tok.marker ['1'], Tok.ch 'x']
          ++ Tok.marker ['7'] :: [Tok.ch 'b']))).weight
        = (mkWord (render ([Tok.ch 'a', Tok.marker ['1'], Tok.ch 'x']
          ++ [Tok.ch 'b']))).weight) ∧
    ((extract_svara_info (render ([Tok.ch 'a']
          ++ Tok.marker ['1', '2'] :: [Tok.ch 'b']))).svara_counts
        = (extract_svara_info (render ([Tok.ch 'a'] ++ [Tok.ch 'b']))).svara_counts ∧
      (extract_svara_info (render ([Tok.ch 'a']
          ++ Tok.marker ['1', '2'] :: [Tok.ch 'b']))).clean_text
        = (extract_svara_info (render ([Tok.ch 'a'] ++ [Tok.ch 'b']))).clean_text ∧
      (mkWord (render ([Tok.ch 'a']
          ++ Tok.marker ['1', '2'] :: [Tok.ch 'b']))).weight
        = (mkWord (render ([Tok.ch 'a'] ++ [Tok.ch 'b']))).weight) :=
  ⟨c9_unknown_code [Tok.ch 'a', Tok.marker ['1'], Tok.ch 'x'] [Tok.ch 'b'] ['7']
      (by decide) (by decide) (by decide) (by decide)
      (by
        intro d hd
        injection hd with h1 _
        subst h1
        exact ⟨by decide, by decide, by decide, by decide⟩),
    c9_unknown_code [Tok.ch 'a'] [Tok.ch 'b'] ['1', '2']
      (by decide) (by decide) (by decide) (by decide)
      (by
        intro d hd
        injection hd with _ h2
        exact absurd h2 (by simp))⟩
